import Mathlib

/-!
Verification of the SQRLMiner FPGA control-plane driver
(src/libethash-sqrl/SQRLMiner.cpp) against its natural-language
specification.

The development shallowly embeds the relevant routines of the source file:

* `VoltageTbl`, `FindClosestVIDToVoltage` — `InitVoltageTbl` (lines
  172-181) and `FindClosestVIDToVoltage` (lines 185-206).  The C++ computes
  the table in `double`; the fitted curve is modelled with exact rationals,
  which is faithful for the structural properties at stake (monotonicity,
  the clamping branches, and the trajectory of the binary search).
* `falseTarget`, `searchBoundary`, `searchFlags`, `searchEntryTrace`,
  `searchLoopRun`, `searchModel` — `search` (lines 743-958).  32-byte
  hashes are modelled as natural numbers below 2^256; the `dev::h256`
  comparison the code uses is big-endian lexicographic on the bytes,
  i.e. exactly numeric comparison.  The loop is driven by a per-iteration
  oracle (`IterIn`) giving the pending-work/stop flags, the interrupt
  outcome and the results of the three counter reads; an exhausted oracle
  list models a loop that has not yet exited and yields `none`.
* `bitLen`, `recipProgrammed` — the reciprocal computation of
  `initEpoch_internal` (lines 502-510).  The C++ computes
  `1.0/(double)nItems * 2^60`, casts the `double` to `uint64_t`
  (truncation) and assigns `>> 4` of it to a `uint32_t`.  The IEEE-754
  binary64 rounding of `1/n` (round to nearest, ties to even) and the
  exact power-of-two scaling are embedded exactly over ℕ: for
  `2^(b-1) ≤ n < 2^b` the rounded significand is
  `m = rnd(2^(52+b)/n)` and the value cast to integer is `⌊m·2^(8-b)⌋`.
* `mixerGo`, `mixerRanges` — the DAG mixer partition loop (lines 617-633).
* `initEpochModel` — the epoch pipeline `initEpoch_internal` (lines
  478-718) as a register-event trace, with an oracle (`EpochOracle`) for
  the register reads and for the two status-bit polling loops (modelled as
  the list of values successive polls return; an exhausted list models a
  poll loop that has not yet terminated and yields `none`).  The
  `makeCacheOnChip` constant is `true` in the source, so only the on-chip
  light-cache branch is live and modelled; `StopHashcore`, `setClock` and
  `getClock` calls appear as single abstract events (their own register
  traffic never touches the DAG-generation addresses the claims are
  about, and `setClock` is modelled in detail separately).
* `TelemOracle`, `hazardOf`, `telemetryModel` — `getTelemetry` (lines
  1109-1188): stack-health decoding and the emergency-stop branch,
  including the `kick_miner` call it makes (lines 728-740).
* `vcoOf`, `divRound`, `setClockDivisor` — the `targetClk > 0` branch of
  `setClock` (lines 1060-1076), with exact rationals standing for the
  `double` arithmetic ( `(int)` truncation of the nonnegative operand is
  `Int.floor`).
* `HRState`, `hrStep` — `processHashrateAverages` (lines 959-995); the
  accumulator is the integer counter the code adds `uint64_t` deltas
  into, and `elapsed` is the whole-second count
  `duration_cast<seconds>(now - m_avgHashTimer).count()`.

Machine integers are modelled as ℕ with `% 2^32` exactly where the C++
truncates to `uint32_t`; quantities that cannot overflow in any reachable
state are left as plain ℕ.
-/

/-- Voltage table entry for a VID code, from `InitVoltageTbl`:
`0.6 + (2.661 / (20 - (2048 / (VID + 153.6))))`.  The loop fills indices
0..254 and the final statement fills index 255 with the same formula, so a
single uniform definition is a faithful embedding. -/
def VoltageTbl (i : ℕ) : ℚ :=
  3/5 + (2661/1000) / (20 - 2048 / ((i : ℚ) + 768/5))

/-- The binary-search loop of `FindClosestVIDToVoltage`: for each step size
`half` in turn, move the candidate index up if the requested voltage is
below the table value there (the table is decreasing), down if above, and
return immediately on an exact hit.  The C++ `return` on an exact match is
modelled by stopping the recursion, which the remaining steps would not
change anyway. -/
def findLoop (v : ℚ) : List ℕ → ℕ → ℕ
  | [], idx => idx
  | h :: hs, idx =>
    if v < VoltageTbl idx then findLoop v hs (idx + h)
    else if VoltageTbl idx < v then findLoop v hs (idx - h)
    else idx

/-- The step sizes `0x40, 0x20, ..., 0x1` of the `for` loop in
`FindClosestVIDToVoltage`. -/
def vidHalves : List ℕ := [64, 32, 16, 8, 4, 2, 1]

/-- `FindClosestVIDToVoltage` (lines 185-206): clamp at both ends of the
table, otherwise binary search from index 0x80. -/
def FindClosestVIDToVoltage (v : ℚ) : ℕ :=
  if v ≤ VoltageTbl 255 then 255
  else if VoltageTbl 0 ≤ v then 0
  else findLoop v vidHalves 128

/-- Shape of the step list consumed by `findLoop`: every tail sums to one
less than the head (the halving pattern 64, 32, ..., 1). -/
def goodSteps : List ℕ → Bool
  | [] => true
  | h :: hs => (0 < h : Bool) && (hs.sum + 1 == h) && goodSteps hs

/-- The fixed minimum-difficulty boundary of `search` (line 760):
`h256("0x0000001fffff...ff")`, i.e. `2^229 - 1`. -/
def falseTarget : ℕ :=
  0x0000001fffffffffffffffffffffffffffffffffffffffffffffffffffffffff

/-- The boundary actually programmed to register 0x5020 (lines 760-762):
the caller's boundary replaces the fixed one only when it compares
greater. -/
def searchBoundary (boundary : ℕ) : ℕ :=
  if falseTarget < boundary then boundary else falseTarget

/-- The packed control word written to 0x5080 at search entry (lines
771-790).  `intensityD = 0` with a nonzero `intensityN` wraps through the
unsigned subtraction exactly as the `uint32_t` arithmetic does. -/
def searchFlags (patience intensityN intensityD : ℕ) : ℕ :=
  (if patience ≠ 0 then (1 <<< 6) ||| ((patience &&& 0xFF) <<< 8) else 0) |||
  (if intensityN ≠ 0 then
      (1 <<< 0) ||| ((intensityN &&& 0xFF) <<< 24) |||
        (((((intensityD &&& 0x3F) * 8 + (2^32 - 1)) % 2^32) <<< 16) % 2^32)
    else 0)

/-- Number of bits of a natural number below `2^64` (position of the
highest set bit, plus one); the binade selector of the IEEE-754 embedding
of `1.0/(double)n`. -/
def bitLen (n : ℕ) : ℕ :=
  (List.range 64).foldl (fun acc k => if 2^k ≤ n then k + 1 else acc) 0

/-- The value `initEpoch_internal` programs to register 0x5088 (lines
506-509): `double reciprical = 1.0/(double)nItems * 2^60;
uint32_t intR = (uint64_t)reciprical >> 4;`.  For `2^(b-1) ≤ n < 2^b` the
binary64 quotient `1.0/n` is `m·2^(-52-b)` with `m` the round-to-nearest,
ties-to-even rounding of `2^(52+b)/n`; the multiplication by the exactly
representable `2^60` is exact, the `uint64_t` cast truncates toward zero,
and the `uint32_t` assignment keeps the low 32 bits.  `n = 0` (a DAG
smaller than 128 bytes) would divide by zero in the C++ and is mapped to
0 here; it is unreachable for real epochs. -/
def recipProgrammed (n : ℕ) : ℕ :=
  if n = 0 then 0
  else
    let b := bitLen n
    let A := 2^(52 + b)
    let Q := A / n
    let R := A % n
    let m := if 2*R < n then Q else if n < 2*R then Q + 1
             else if Q % 2 = 0 then Q else Q + 1
    let t := (m * 256) / 2^b
    (t >>> 4) % 2^32

/-- The mixer partition loop of `initEpoch_internal` (lines 625-633):
`k` iterations remain, `i` is the loop counter, `pos` is `dagPos`. -/
def mixerGo (size leftover : ℕ) : ℕ → ℕ → ℕ → List (ℕ × ℕ)
  | 0, _, _ => []
  | k+1, i, pos =>
    let e := pos + size + (if i = 0 then leftover else 0)
    (pos, e) :: mixerGo size leftover k (i+1) e

/-- The `[start, end)` ranges programmed per mixer:
`mixer_size = dagItems / num_mixers`,
`leftover = dagItems - mixer_size * num_mixers` (lines 619-620). -/
def mixerRanges (dagItems mixers : ℕ) : List (ℕ × ℕ) :=
  mixerGo (dagItems / mixers) (dagItems - (dagItems / mixers) * mixers) mixers 0 0

/-- Register-level events of the embedded traces.  `stopSoft` stands for a
`StopHashcore(true)` call, `setClk`/`getClk` for `setClock`/`getClock`
calls (modelled in register detail separately), `bulkWrite` for
`SQRLAXIWriteBulk` with its payload read as a number, `cdmaCopy` for
`SQRLAXICDMACopyBytes`, `submit` for a solution handed to the sink,
`newWorkSet`/`kickIntr`/`notify` for the bodies of `kick_miner`. -/
inductive Ev where
  | lock
  | unlock
  | write (addr val : ℕ)
  | read (addr : ℕ)
  | bulkWrite (addr val : ℕ)
  | cdmaCopy (src dst len : ℕ)
  | stopSoft
  | setClk (t : ℚ)
  | getClk
  | startTune
  | waitIntr
  | submit (nonce : ℕ)
  | setDagging (b : Bool)
  | newWorkSet
  | kickIntr
  | notify
deriving DecidableEq

/-- Oracle for one `initEpoch_internal` run: results of the status-word
read at 0x40B8 (`none` = read error, the code substitutes 0), the
`getClock()` result and `m_lastClk`, the values returned by successive
polls of the light-cache status (0x40BC) and the DAG status (0x4000), the
initial 0x4000 read after kickoff, and the index of the first failing
duplication copy, if any. -/
structure EpochOracle where
  dagStatusRead : Option ℕ
  curClk : ℚ
  lastClk : ℚ
  cachePolls : List ℕ
  dagStatus0 : ℕ
  dagPolls : List ℕ
  swizzleFailAt : Option ℕ

/-- Poll loop on a status bit 1 (`while ((cstatus&2) != 2)`), releasing
the lock around each 100ms sleep (lines 566-578): consumes read results
until one has bit 1 set; an exhausted oracle means the loop has not
terminated. -/
def pollEvents (addr : ℕ) : List ℕ → Option (List Ev)
  | [] => none
  | c :: cs =>
    let evs := [Ev.unlock, Ev.lock, Ev.read addr]
    if c &&& 2 = 2 then some evs else (evs ++ ·) <$> pollEvents addr cs

/-- The DAG-generation poll loop (lines 645-666): the status checked at
the top comes from the previous read, `cnt` is the `uint8_t` poll counter,
and every poll with `cnt % 5 == 0` additionally reads the progress counter
at 0x4008. -/
def dagPollEvents : ℕ → ℕ → List ℕ → Option (List Ev)
  | status, _, [] => if status &&& 2 = 2 then some [] else none
  | status, cnt, p :: ps =>
    if status &&& 2 = 2 then some []
    else
      let c := (cnt + 1) % 256
      (([Ev.unlock, Ev.lock, Ev.read 0x4000]
          ++ (if c % 5 = 0 then [Ev.read 0x4008] else [])) ++ ·)
        <$> dagPollEvents p c ps

/-- Source address of duplication chunk `i` (line 679). -/
def swizzleSrc (i : ℕ) : ℕ := 0x100000000 ||| (i <<< 24)

/-- Destination address of duplication chunk `i` — the nibble-swapped
chunk index shifted to a 16MiB boundary (line 680). -/
def swizzleDst (i : ℕ) : ℕ :=
  (((i &&& 0x0F) <<< 4) ||| ((i &&& 0xF0) >>> 4)) <<< 24

/-- The DAG-duplication copies (lines 678-697): 256 chunk copies, aborted
at the first failure; only a fully successful pass is followed by the
whole-image copy back. -/
def swizzleEvents (failAt : Option ℕ) : List Ev :=
  match failAt with
  | some k =>
    if k < 256 then
      (List.range (k+1)).map fun i => Ev.cdmaCopy (swizzleSrc i) (swizzleDst i) 0x1000000
    else
      ((List.range 256).map fun i => Ev.cdmaCopy (swizzleSrc i) (swizzleDst i) 0x1000000)
        ++ [Ev.cdmaCopy 0 0x100000000 (4*1024*1024*1024)]
  | none =>
    ((List.range 256).map fun i => Ev.cdmaCopy (swizzleSrc i) (swizzleDst i) 0x1000000)
      ++ [Ev.cdmaCopy 0 0x100000000 (4*1024*1024*1024)]

/-- Events common to both paths of `initEpoch_internal` (lines 486-518):
drop to stock clock, take the lock, soft-stop the hash core, power the
generator on, stop it, program item count and reciprocal, read the
persisted status word. -/
def epochPreTrace (nItems : ℕ) : List Ev :=
  [Ev.setClk (-2), Ev.lock, Ev.stopSoft,
   Ev.write 0xB000 0xFFFFFFFF, Ev.write 0x4000 2,
   Ev.write 0x5040 nItems, Ev.write 0x5088 (recipProgrammed nItems),
   Ev.read 0x40B8]

/-- The fast-path trace (lines 519-532): power the generator down, release
the lock, restore the target clock, restart tuning. -/
def fastPathTrace (o : EpochOracle) (nItems : ℕ) : List Ev :=
  epochPreTrace nItems
    ++ [Ev.write 0xB000 0, Ev.unlock, Ev.setClk o.lastClk, Ev.startTune]

/-- `initEpoch_internal` (lines 478-718) as an event trace.  The result is
`none` when a polling oracle is exhausted (the loop would still be
spinning), otherwise `some (returnValue, trace)`.  `makeCacheOnChip` is a
compile-time `true` in the source, so the bulk-upload branch is dead code
and only the on-chip branch is modelled. -/
def initEpochModel (force skipDAG : Bool) (mixers : ℕ) (o : EpochOracle)
    (epoch dagSize lightSize : ℕ) : Option (Bool × List Ev) :=
  let nItems := dagSize / 128 % 2^32
  let w := o.dagStatusRead.getD 0
  if (w >>> 31 != 0) && !force && (w &&& 0xFFFF == epoch % 2^32) then
    some (true, fastPathTrace o nItems)
  else
    let resetEvs := [Ev.write 0xB000 0xFFFFFFFD, Ev.write 0xB000 0xFFFFFFFF]
    let clkEvs := [Ev.getClk]
      ++ (if o.curClk < o.lastClk then [Ev.setClk (-2)] else [Ev.setClk o.lastClk])
    let npn := lightSize / 64 % 2^32
    let cacheKick := [Ev.write 0x40BC 2, Ev.write 0x4008 npn,
      Ev.bulkWrite 0x40C0 32, Ev.write 0x40BC 1]
    match pollEvents 0x40BC o.cachePolls with
    | none => none
    | some cacheLoop =>
      let mixEvs := [Ev.write 0x4008 npn]
        ++ ((mixerRanges (dagSize / 64) mixers).enum.bind fun p =>
              [Ev.write (0x400C + 8*p.1) p.2.1, Ev.write (0x4010 + 8*p.1) p.2.2])
      let kickoff := [Ev.write 0x4000 1, Ev.read 0x4000]
      match (if skipDAG then some [] else dagPollEvents o.dagStatus0 0 o.dagPolls) with
      | none => none
      | some dagLoop =>
        let dupEvs := swizzleEvents o.swizzleFailAt
        let persist := [Ev.write 0x40B8 ((1 <<< 31) ||| (epoch % 2^32)),
          Ev.write 0xB000 0]
        let clkRestore := if o.lastClk ≠ 0 then [Ev.setClk o.lastClk] else []
        some (true, epochPreTrace nItems ++ resetEvs ++ clkEvs ++ cacheKick
          ++ cacheLoop ++ mixEvs ++ kickoff ++ dagLoop ++ dupEvs ++ persist
          ++ clkRestore ++ [Ev.unlock, Ev.startTune])

/-- Number of generator-start commands (value 1 written to 0x4000) in a
trace. -/
def genStartWrites (tr : List Ev) : ℕ :=
  tr.countP fun e => match e with
    | Ev.write a v => a == 0x4000 && v == 1
    | _ => false

/-- Number of light-cache-build register operations (writes to the cache
control register 0x40BC, and the seed bulk upload to 0x40C0) in a
trace. -/
def cacheBuildWrites (tr : List Ev) : ℕ :=
  tr.countP fun e => match e with
    | Ev.write a _ => a == 0x40BC
    | Ev.bulkWrite a _ => a == 0x40C0
    | _ => false

/-- Number of mixer-range register writes (addresses `0x400C + 8i` and
`0x4010 + 8i`) in a trace. -/
def mixerRangeWrites (tr : List Ev) : ℕ :=
  tr.countP fun e => match e with
    | Ev.write a _ => decide (0x400C ≤ a ∧ a < 0x40B8)
    | _ => false

/-- Number of device-to-device copies (the duplication pass) in a
trace. -/
def dagCopies (tr : List Ev) : ℕ :=
  tr.countP fun e => match e with
    | Ev.cdmaCopy _ _ _ => true
    | _ => false

/-- Oracle for one `getTelemetry` call: the temperature, power and
stack-health register reads (`none` = read failure). -/
structure TelemOracle where
  tempRead : Option ℕ
  powerRead : Option ℕ
  hbmRead : Option ℕ
  tunerStage : ℕ

/-- The body of `kick_miner` (lines 728-740): set the new-work flag, kick
interrupts only when not dagging, and signal the condition variable. -/
def kickEvents (dagging : Bool) : List Ev :=
  [Ev.newWorkSet] ++ (if dagging then [] else [Ev.kickIntr]) ++ [Ev.notify]

/-- The emergency condition of line 1174:
`leftCatastrophic | rightCatastrophic | !leftCalibrated | !rightCalibrated`
over the decoded stack-health word (bits 0, 1, 2, 10 of the raw value). -/
def hazardOf (raw : ℕ) : Bool :=
  let leftCalibrated := (raw >>> 0) &&& 1 == 1
  let rightCalibrated := (raw >>> 1) &&& 1 == 1
  let leftCatastrophic := (raw >>> 2) &&& 1 == 1
  let rightCatastrophic := (raw >>> 10) &&& 1 == 1
  leftCatastrophic || rightCatastrophic || !leftCalibrated || !rightCalibrated

/-- `getTelemetry` (lines 1109-1188) as an event trace plus the resulting
`m_dagging` flag.  `raw` defaults to 0x3 when the 0x7008 read fails (the
code pre-loads 3 and ignores the read status).  In the emergency branch
`m_dagging` is set before `kick_miner` runs, so the interrupt kick inside
`kick_miner` is skipped there. -/
def telemetryModel (o : TelemOracle) (dagging : Bool) : List Ev × Bool :=
  let raw := o.hbmRead.getD 3
  let baseEvs := [Ev.lock, Ev.read 0x3400, Ev.getClk, Ev.read 0x3404,
    Ev.read 0x7008, Ev.unlock]
  if hazardOf raw then
    (baseEvs ++ [Ev.stopSoft, Ev.write 0xB000 0, Ev.setDagging true]
      ++ kickEvents true, true)
  else (baseEvs, dagging)

/-- Decode of the VCO registers in `setClock` (lines 1006-1022), including
the source's `0x2F` mask quirk in the fractional-enable test.  A zero
output-divider field would divide by zero in the C++ (IEEE infinity); in
ℚ it yields 0 and is irrelevant to the claims, which quantify over the
derived VCO value. -/
def vcoOf (valueVCO : ℕ) : ℚ :=
  let mult : ℚ := (((valueVCO >>> 8) &&& 0xFF : ℕ) : ℚ)
  let frac : ℚ := if ((valueVCO >>> 16) &&& 0x2F) ≠ 0
    then (((valueVCO >>> 16) &&& 0x3FF : ℕ) : ℚ) / 1000 else 0
  let gdiv : ℚ := ((valueVCO &&& 0xF : ℕ) : ℚ)
  200 * (mult + frac) / gdiv

/-- The divisor rounding of `setClock` (line 1063):
`desiredDiv = ((double)((int)(desiredDiv * 8 + 0.99))) / 8.0`.  The
operand is nonnegative in every reachable state, so the `(int)` cast is
the floor. -/
def divRound (d : ℚ) : ℚ := ((⌊d * 8 + 99/100⌋ : ℤ) : ℚ) / 8

/-- The `targetClk > 0` branch of `setClock` (lines 1060-1076): the final
divisor programmed, or `none` when the request is rejected
(`desiredDiv < 2.0` after rounding) and nothing is written. -/
def setClockDivisor (vco targetClk : ℚ) : Option ℚ :=
  if 0 < targetClk then
    let r := divRound (vco / (targetClk + 1))
    if r < 2 then none else some r
  else none

/-- One search-loop iteration's oracle: the new-work flag, the
should-stop flag, the interrupt outcome (`some` = nonce delivered), and
the result of the stall-counter read at 0x5084 (`none` = read error, the
code substitutes 0). -/
structure IterIn where
  newWork : Bool
  stop : Bool
  nonce : Option ℕ
  sCntRead : Option ℕ

/-- The entry sequence of `search` (lines 756-806): program header,
effective boundary, split start nonce, control word, and the
interrupt-enable bit. -/
def searchEntryTrace (header boundary nonce flags : ℕ) : List Ev :=
  [Ev.lock, Ev.bulkWrite 0x5000 header,
   Ev.bulkWrite 0x5020 (searchBoundary boundary),
   Ev.write 0x5068 (nonce >>> 32), Ev.write 0x5064 (nonce &&& 0xFFFFFFFF),
   Ev.write 0x5080 flags, Ev.write 0x506C 0x00010001]

/-- The search loop (lines 811-953), driven by the per-iteration oracle:
exits at the top on new work or stop; otherwise waits for the interrupt,
reads the stall counter (unless disabled) and the two target-check words,
submits a delivered nonce, and exits at the bottom when the stall sample
equals the previous one.  Returns the list of stall samples taken and the
loop's events; `none` when the oracle is exhausted with the loop still
running. -/
def searchLoopRun (skipStall : Bool) : ℕ → List IterIn → Option (List ℕ × List Ev)
  | _, [] => none
  | lastS, it :: rest =>
    if it.newWork || it.stop then some ([], [])
    else
      let evs := [Ev.unlock, Ev.waitIntr, Ev.lock]
        ++ (if skipStall then [] else [Ev.read 0x5084])
        ++ [Ev.read 0x5048, Ev.read 0x5044]
        ++ (match it.nonce with | some n => [Ev.submit n] | none => [])
      let sCnt := it.sCntRead.getD 0
      if skipStall then
        Option.map (fun p => (p.1, evs ++ p.2)) (searchLoopRun skipStall lastS rest)
      else if sCnt = lastS then some ([sCnt], evs)
      else Option.map (fun p => (sCnt :: p.1, evs ++ p.2))
        (searchLoopRun skipStall sCnt rest)

/-- A whole `search` invocation: entry sequence, loop, and the
unconditional exit sequence `StopHashcore(true); unlock` (lines
955-956). -/
def searchModel (skipStall : Bool) (header boundary nonce flags : ℕ)
    (iters : List IterIn) : Option (List ℕ × List Ev) :=
  (searchLoopRun skipStall 0 iters).map fun p =>
    (p.1, searchEntryTrace header boundary nonce flags ++ p.2
      ++ [Ev.stopSoft, Ev.unlock])

/-- The final two events of a trace. -/
def lastTwo (tr : List Ev) : List Ev := tr.drop (tr.length - 2)

/-- State of the hashrate averager: the running target-check accumulator
`m_hashCounter` and the two history FIFOs (newest at the back). -/
structure HRState where
  counter : ℕ
  fifo10 : List ℚ
  fifo60 : List ℚ
deriving DecidableEq

/-- `processHashrateAverages` (lines 959-995): accumulate the delta; when
the whole-second elapsed count exceeds 60, compute
`avg1min = (counter / 60) / 10^6`, push it to both FIFOs only when
strictly inside (10, 100), drop each FIFO's oldest entry when past its
capacity, and reset counter and timer (the returned flag is `true` exactly
when the flush branch ran and the timer was reset). -/
def hrStep (delta elapsed : ℕ) (s : HRState) : HRState × Bool :=
  let c := s.counter + delta
  if 60 < elapsed then
    let avg1 : ℚ := ((c / 60 : ℕ) : ℚ) / 1000000
    let f10a := if 10 < avg1 ∧ avg1 < 100 then s.fifo10 ++ [avg1] else s.fifo10
    let f10 := if 10 < f10a.length then f10a.tail else f10a
    let f60a := if 10 < avg1 ∧ avg1 < 100 then s.fifo60 ++ [avg1] else s.fifo60
    let f60 := if 60 < f60a.length then f60a.tail else f60a
    (⟨0, f10, f60⟩, true)
  else (⟨c, s.fifo10, s.fifo60⟩, false)

lemma VoltageTbl_denom_pos (i : ℕ) : (0:ℚ) < 20 - 2048 / ((i : ℚ) + 768/5) := by
  have h0 : (0:ℚ) ≤ (i:ℚ) := Nat.cast_nonneg i
  have hx : (0:ℚ) < (i:ℚ) + 768/5 := by positivity
  rw [sub_pos, div_lt_iff hx]
  nlinarith

lemma VoltageTbl_eq (i : ℕ) :
    VoltageTbl i = 3/5 + (2661 * (5*(i:ℚ) + 768)) / (1000 * (100*(i:ℚ) + 5120)) := by
  have h0 : (0:ℚ) ≤ (i:ℚ) := Nat.cast_nonneg i
  have hx : ((i:ℚ) + 768/5) ≠ 0 := by positivity
  have h5 : (5*(i:ℚ) + 768) ≠ 0 := by positivity
  have hden : (20:ℚ) - 2048/((i:ℚ)+768/5) = (100*(i:ℚ)+5120)/(5*(i:ℚ)+768) := by
    field_simp
    ring
  rw [VoltageTbl, hden, div_div_eq_mul_div, div_mul_eq_mul_div, div_div]

lemma VoltageTbl_succ_lt (i : ℕ) : VoltageTbl (i+1) < VoltageTbl i := by
  rw [VoltageTbl_eq, VoltageTbl_eq]
  have h0 : (0:ℚ) ≤ (i:ℚ) := Nat.cast_nonneg i
  have d1 : (0:ℚ) < 1000 * (100*(i:ℚ) + 5120) := by positivity
  have d2 : (0:ℚ) < 1000 * (100*((i:ℚ)+1) + 5120) := by positivity
  push_cast
  rw [add_lt_add_iff_left, div_lt_div_iff d2 d1]
  nlinarith

lemma VoltageTbl_strictAnti {i j : ℕ} (h : i < j) : VoltageTbl j < VoltageTbl i := by
  induction j with
  | zero => omega
  | succ k ih =>
    rcases Nat.lt_succ_iff_lt_or_eq.mp h with h' | h'
    · exact (VoltageTbl_succ_lt k).trans (ih h')
    · subst h'; exact VoltageTbl_succ_lt i

/-- Main invariant of the binary search: entering the loop with step list
`l` and candidate `idx`, the requested voltage is bracketed by the table
values one past the reachable window on each side.  On exit the window has
width one, so the result is within one index of the crossing point. -/
lemma findLoop_bracket (v : ℚ) :
    ∀ (l : List ℕ) (idx : ℕ), goodSteps l = true →
    l.sum + 1 ≤ idx → idx + l.sum + 1 ≤ 256 →
    (idx + l.sum + 1 = 256 ∨ VoltageTbl (idx + l.sum + 1) ≤ v) →
    v ≤ VoltageTbl (idx - (l.sum + 1)) →
    1 ≤ findLoop v l idx ∧ findLoop v l idx ≤ 255 ∧
      (findLoop v l idx ≤ 254 → VoltageTbl (findLoop v l idx + 1) ≤ v) ∧
      v ≤ VoltageTbl (findLoop v l idx - 1) := by
  intro l
  induction l with
  | nil =>
    intro idx _ hlo hhi hdown hup
    simp only [List.sum_nil] at hlo hhi hdown hup
    simp only [findLoop]
    refine ⟨hlo, by omega, ?_, hup⟩
    intro h254
    rcases hdown with h | h
    · omega
    · exact h
  | cons h hs ih =>
    intro idx hgood hlo hhi hdown hup
    simp only [goodSteps, Bool.and_eq_true, beq_iff_eq, decide_eq_true_eq] at hgood
    obtain ⟨⟨hpos, hsum⟩, hgood'⟩ := hgood
    have hsum2 : (h :: hs).sum = 2*h - 1 := by simp only [List.sum_cons]; omega
    rw [hsum2] at hlo hhi hdown hup
    have h2h : 2*h ≤ idx := by omega
    have h2h' : idx + 2*h ≤ 256 := by omega
    simp only [findLoop]
    by_cases hlt : v < VoltageTbl idx
    · rw [if_pos hlt]
      apply ih (idx + h) hgood' (by omega) (by omega)
      · have e : idx + h + hs.sum + 1 = idx + (2*h - 1) + 1 := by omega
        rw [e]
        exact hdown
      · have e : idx + h - (hs.sum + 1) = idx := by omega
        rw [e]
        exact le_of_lt hlt
    · rw [if_neg hlt]
      by_cases hgt : VoltageTbl idx < v
      · rw [if_pos hgt]
        apply ih (idx - h) hgood' (by omega) (by omega)
        · right
          have e : idx - h + hs.sum + 1 = idx := by omega
          rw [e]
          exact le_of_lt hgt
        · have e : idx - h - (hs.sum + 1) = idx - (2*h - 1 + 1) := by omega
          rw [e]
          exact hup
      · rw [if_neg hgt]
        have heq : VoltageTbl idx = v := le_antisymm (not_lt.mp hlt) (not_lt.mp hgt)
        have hidx1 : 1 ≤ idx := by omega
        refine ⟨hidx1, by omega, ?_, ?_⟩
        · intro _
          have hstep : VoltageTbl (idx + 1) < VoltageTbl idx :=
            VoltageTbl_strictAnti (by omega)
          linarith [heq ▸ hstep]
        · have hstep : VoltageTbl idx < VoltageTbl (idx - 1) :=
            VoltageTbl_strictAnti (by omega)
          linarith [heq ▸ hstep]

/-- C1 (amended).  The table is strictly decreasing on [0,255] and both
clamping branches behave as claimed; for interior requests the binary
search returns an index in [1,255] whose table value brackets the request
within one position — `table[i+1] ≤ v ≤ table[i-1]` — i.e. an index within
one of the minimizing one, but (contrary to the original claim, see
`claim_C1_counterexample`) not always the index minimizing
`|table[i] - v|`. -/
theorem claim_C1_amended :
    (∀ i : ℕ, i < 255 → VoltageTbl (i+1) < VoltageTbl i)
    ∧ (∀ v : ℚ, v ≤ VoltageTbl 255 → FindClosestVIDToVoltage v = 255)
    ∧ (∀ v : ℚ, VoltageTbl 0 ≤ v → FindClosestVIDToVoltage v = 0)
    ∧ (∀ v : ℚ, VoltageTbl 255 < v → v < VoltageTbl 0 →
        1 ≤ FindClosestVIDToVoltage v ∧ FindClosestVIDToVoltage v ≤ 255 ∧
        (FindClosestVIDToVoltage v ≤ 254 →
          VoltageTbl (FindClosestVIDToVoltage v + 1) ≤ v) ∧
        v ≤ VoltageTbl (FindClosestVIDToVoltage v - 1)) := by
  refine ⟨fun i _ => VoltageTbl_succ_lt i, ?_, ?_, ?_⟩
  · intro v hv
    unfold FindClosestVIDToVoltage
    rw [if_pos hv]
  · intro v hv
    have h255 : VoltageTbl 255 < VoltageTbl 0 := VoltageTbl_strictAnti (by norm_num)
    unfold FindClosestVIDToVoltage
    rw [if_neg (by linarith), if_pos hv]
  · intro v hlo hhi
    unfold FindClosestVIDToVoltage
    rw [if_neg (by linarith), if_neg (by linarith)]
    have hg : goodSteps vidHalves = true := by decide
    have hsum : vidHalves.sum = 127 := by decide
    apply findLoop_bracket v vidHalves 128 hg
    · rw [hsum]
    · rw [hsum]
    · left; rw [hsum]
    · rw [hsum]
      norm_num
      exact le_of_lt hhi

/-- C1 counterexample.  For the concrete request `table[0] - gap/4` (with
`gap = table[0] - table[1]`), strictly inside `(table[255], table[0])` and
strictly closer to `table[0]` than to `table[1]`, the binary search
returns index 1, not the minimizing index 0: the distance to the returned
entry exceeds the distance to entry 0. -/
theorem claim_C1_counterexample :
    VoltageTbl 255 < VoltageTbl 0 - (VoltageTbl 0 - VoltageTbl 1)/4
    ∧ VoltageTbl 0 - (VoltageTbl 0 - VoltageTbl 1)/4 < VoltageTbl 0
    ∧ FindClosestVIDToVoltage (VoltageTbl 0 - (VoltageTbl 0 - VoltageTbl 1)/4) = 1
    ∧ VoltageTbl 0 - (VoltageTbl 0 - (VoltageTbl 0 - VoltageTbl 1)/4)
        < (VoltageTbl 0 - (VoltageTbl 0 - VoltageTbl 1)/4) - VoltageTbl 1 := by
  refine ⟨?_, ?_, ?_, ?_⟩
  · norm_num [VoltageTbl]
  · norm_num [VoltageTbl]
  · norm_num [FindClosestVIDToVoltage, findLoop, vidHalves, VoltageTbl]
  · norm_num [VoltageTbl]

/-- C1 witness: the amended theorem instantiated at the interior request
0.8 V. -/
theorem claim_C1_witness :
    VoltageTbl 255 < 4/5 ∧ (4/5 : ℚ) < VoltageTbl 0
    ∧ 1 ≤ FindClosestVIDToVoltage (4/5) ∧ FindClosestVIDToVoltage (4/5) ≤ 255
    ∧ VoltageTbl (FindClosestVIDToVoltage (4/5) + 1) ≤ 4/5
    ∧ (4/5 : ℚ) ≤ VoltageTbl (FindClosestVIDToVoltage (4/5) - 1) := by
  have h1 : VoltageTbl 255 < 4/5 := by norm_num [VoltageTbl]
  have h2 : (4/5 : ℚ) < VoltageTbl 0 := by norm_num [VoltageTbl]
  have h := claim_C1_amended.2.2.2 (4/5) h1 h2
  have h254 : FindClosestVIDToVoltage (4/5) ≤ 254 := by
    norm_num [FindClosestVIDToVoltage, findLoop, vidHalves, VoltageTbl]
  exact ⟨h1, h2, h.1, h.2.1, h.2.2.1 h254, h.2.2.2⟩

/-- C6 counterexample.  For a caller boundary of 5 (an extremely
high-difficulty target), the stricter (numerically smaller) of the two
boundaries is the caller's 5, yet the device is programmed with the fixed
floor: the programmed value is the looser, not the stricter, of the
two. -/
theorem claim_C6_counterexample :
    searchBoundary 5 = falseTarget ∧ (5:ℕ) < falseTarget
    ∧ searchBoundary 5 ≠ 5 := by
  refine ⟨?_, by decide, ?_⟩ <;> decide

/-- C6 (amended).  The boundary programmed to 0x5020 is the numerically
larger — i.e. the less strict — of the fixed floor `2^229 - 1` and the
caller's boundary: a caller boundary at or below the floor (a target
harder than the floor difficulty) is silently replaced by the floor, and
a boundary above it is used as given. -/
theorem claim_C6_amended :
    (∀ b : ℕ, searchBoundary b = max falseTarget b)
    ∧ (∀ b : ℕ, falseTarget ≤ searchBoundary b)
    ∧ (∀ b : ℕ, b ≤ falseTarget → searchBoundary b = falseTarget)
    ∧ (∀ b : ℕ, falseTarget < b → searchBoundary b = b)
    ∧ (∀ header b nonce flags : ℕ,
        Ev.bulkWrite 0x5020 (searchBoundary b)
          ∈ searchEntryTrace header b nonce flags) := by
  refine ⟨?_, ?_, ?_, ?_, ?_⟩
  · intro b; unfold searchBoundary; split <;> omega
  · intro b; unfold searchBoundary; split <;> omega
  · intro b hb; unfold searchBoundary; split <;> omega
  · intro b hb; unfold searchBoundary; split <;> omega
  · intro header b nonce flags
    simp [searchEntryTrace]

/-- C6 witness: the amended theorem instantiated at caller boundary 5. -/
theorem claim_C6_witness :
    searchBoundary 5 = max falseTarget 5
    ∧ falseTarget ≤ searchBoundary 5
    ∧ searchBoundary 5 = falseTarget
    ∧ Ev.bulkWrite 0x5020 (searchBoundary 5) ∈ searchEntryTrace 0 5 0 0 :=
  ⟨claim_C6_amended.1 5, claim_C6_amended.2.1 5,
   claim_C6_amended.2.2.1 5 (by decide),
   claim_C6_amended.2.2.2.2 0 5 0 0⟩

/-- C8 counterexample.  At `itemCount = 2^20` (one of the claim's own
sample points, `dagSize = 2^27`), `floor(2^60/2^20) >> 4 = 2^36` does not
fit the 32-bit register: the programmed value is 0, not `2^36`, so the
claimed exact equality fails. -/
theorem claim_C8_counterexample :
    recipProgrammed (2^20) = 0 ∧ ((2^60 / 2^20) >>> 4) = 2^36
    ∧ recipProgrammed (2^20) ≠ ((2^60 / 2^20) >>> 4) := by
  refine ⟨?_, ?_, ?_⟩ <;> decide

/-- C8 (amended).  The value programmed to 0x5088 is the low 32 bits of
the double-precision computation; for the four sample itemCounts it equals
`(floor(2^60/N) >> 4) mod 2^32` — the claimed identity reduced modulo the
32-bit register width (for `N = 1` and `N = 2^20` both sides are then 0,
the wide results having been truncated away).  On every epoch change the
pipeline writes `itemCount = dagSize/128` (as a `uint32_t`) to 0x5040 and
this reciprocal to 0x5088, on the fast path and the full path alike. -/
theorem claim_C8_amended :
    (recipProgrammed 1 = ((2^60 / 1) >>> 4) % 2^32)
    ∧ (recipProgrammed 7 = ((2^60 / 7) >>> 4) % 2^32)
    ∧ (recipProgrammed 123456 = ((2^60 / 123456) >>> 4) % 2^32)
    ∧ (recipProgrammed (2^20) = ((2^60 / 2^20) >>> 4) % 2^32)
    ∧ (∀ force skipDAG mixers o epoch dagSize lightSize res tr,
        initEpochModel force skipDAG mixers o epoch dagSize lightSize
          = some (res, tr) →
        Ev.write 0x5040 (dagSize / 128 % 2^32) ∈ tr
        ∧ Ev.write 0x5088 (recipProgrammed (dagSize / 128 % 2^32)) ∈ tr) := by
  refine ⟨by decide, by decide, by decide, by decide, ?_⟩
  intro force skipDAG mixers o epoch dagSize lightSize res tr h
  unfold initEpochModel at h
  cases hcb : ((o.dagStatusRead.getD 0 >>> 31 != 0) && !force
      && (o.dagStatusRead.getD 0 &&& 0xFFFF == epoch % 2^32)) with
  | true =>
    simp only [hcb, if_true] at h
    cases h
    constructor <;> simp [fastPathTrace, epochPreTrace]
  | false =>
    simp only [hcb, Bool.false_eq_true, if_false] at h
    rcases hp : pollEvents 0x40BC o.cachePolls with _ | cacheLoop
    · simp only [hp] at h
      cases h
    · simp only [hp] at h
      rcases hd : (if skipDAG then some ([] : List Ev)
          else dagPollEvents o.dagStatus0 0 o.dagPolls) with _ | dagLoop
      · simp only [hd] at h
        cases h
      · simp only [hd] at h
        cases h
        constructor <;> simp [epochPreTrace]

/-- C8 witness: the pipeline conjunct of the amended theorem instantiated
on a concrete fast-path run (`dagSize = 2^33`, epoch 5, status word
`2^31 + 5`). -/
theorem claim_C8_witness :
    Ev.write 0x5040 (2^33 / 128 % 2^32)
        ∈ fastPathTrace ⟨some (2^31 + 5), 0, 300, [], 0, [], none⟩ (2^33 / 128 % 2^32)
    ∧ Ev.write 0x5088 (recipProgrammed (2^33 / 128 % 2^32))
        ∈ fastPathTrace ⟨some (2^31 + 5), 0, 300, [], 0, [], none⟩ (2^33 / 128 % 2^32) :=
  claim_C8_amended.2.2.2.2 false false 4 ⟨some (2^31 + 5), 0, 300, [], 0, [], none⟩
    5 (2^33) (2^24) true
    (fastPathTrace ⟨some (2^31 + 5), 0, 300, [], 0, [], none⟩ (2^33 / 128 % 2^32))
    (by decide)

lemma getD_map_range {α : Type} (d : α) :
    ∀ (n : ℕ) (f : ℕ → α) (k : ℕ), k < n →
    ((List.range n).map f).getD k d = f k := by
  intro n
  induction n with
  | zero => intro f k hk; exact absurd hk (Nat.not_lt_zero k)
  | succ m ih =>
    intro f k hk
    rw [List.range_succ_eq_map]
    simp only [List.map_cons, List.map_map]
    cases k with
    | zero => rw [List.getD_cons_zero]
    | succ k' =>
      rw [List.getD_cons_succ]
      exact ih (f ∘ Nat.succ) k' (by omega)

lemma mixerGo_pos (size leftover : ℕ) :
    ∀ (k i pos : ℕ), i ≠ 0 →
    mixerGo size leftover k i pos
      = (List.range k).map (fun j => (pos + j*size, pos + (j+1)*size)) := by
  intro k
  induction k with
  | zero => intro i pos _; simp [mixerGo]
  | succ m ih =>
    intro i pos hi
    simp only [mixerGo, if_neg hi]
    rw [ih (i+1) (pos + size + 0) (by omega)]
    rw [List.range_succ_eq_map]
    simp only [List.map_cons, List.map_map]
    congr 1
    · simp
    · refine List.map_congr_left ?_
      intro j _
      simp only [Function.comp_apply, Prod.mk.injEq, Nat.succ_eq_add_one]
      constructor <;> ring

lemma mixerRanges_eq (d n : ℕ) :
    mixerRanges d (n+1)
      = (0, d/(n+1) + (d - d/(n+1)*(n+1))) :: (List.range n).map
          (fun j => (d/(n+1) + (d - d/(n+1)*(n+1)) + j*(d/(n+1)),
                     d/(n+1) + (d - d/(n+1)*(n+1)) + (j+1)*(d/(n+1)))) := by
  have step1 : mixerRanges d (n+1)
      = (0, 0 + d/(n+1) + (d - d/(n+1)*(n+1)))
        :: mixerGo (d/(n+1)) (d - d/(n+1)*(n+1)) n (0+1)
             (0 + d/(n+1) + (d - d/(n+1)*(n+1))) := rfl
  rw [step1, mixerGo_pos (d/(n+1)) (d - d/(n+1)*(n+1)) n (0+1)
      (0 + d/(n+1) + (d - d/(n+1)*(n+1))) (by omega)]
  simp only [zero_add]

/-- C9 (confirmed).  For every `dagItems` and `mixerCount ≥ 1` the
programmed per-mixer `[start, end)` ranges are contiguous, start at 0,
are pairwise non-overlapping, have lengths summing to `dagItems`, give
every mixer other than mixer 0 exactly `dagItems / mixerCount` items, and
give mixer 0 exactly `dagItems mod mixerCount` more than the others. -/
theorem claim_C9 (dagItems mixers : ℕ) (hm : 1 ≤ mixers) :
    (mixerRanges dagItems mixers).length = mixers
    ∧ ((mixerRanges dagItems mixers).getD 0 (0,0)).1 = 0
    ∧ (∀ k, k + 1 < mixers →
        ((mixerRanges dagItems mixers).getD k (0,0)).2
          = ((mixerRanges dagItems mixers).getD (k+1) (0,0)).1)
    ∧ (∀ k, 1 ≤ k → k < mixers →
        ((mixerRanges dagItems mixers).getD k (0,0)).2
          - ((mixerRanges dagItems mixers).getD k (0,0)).1 = dagItems / mixers)
    ∧ (((mixerRanges dagItems mixers).getD 0 (0,0)).2
        - ((mixerRanges dagItems mixers).getD 0 (0,0)).1
        = dagItems / mixers + dagItems % mixers)
    ∧ (((mixerRanges dagItems mixers).map fun p => p.2 - p.1).sum = dagItems)
    ∧ (∀ j k, j < k → k < mixers →
        ((mixerRanges dagItems mixers).getD j (0,0)).2
          ≤ ((mixerRanges dagItems mixers).getD k (0,0)).1) := by
  obtain ⟨n, rfl⟩ : ∃ n, mixers = n + 1 := ⟨mixers - 1, by omega⟩
  have hDM := Nat.div_add_mod dagItems (n+1)
  have hsub : dagItems - dagItems/(n+1)*(n+1) = dagItems % (n+1) := by
    have h1 : dagItems/(n+1)*(n+1) = (n+1)*(dagItems/(n+1)) :=
      Nat.mul_comm _ _
    omega
  rw [mixerRanges_eq dagItems n, hsub]
  generalize hS : dagItems / (n+1) = S at hDM ⊢
  generalize hM : dagItems % (n+1) = M at hDM ⊢
  refine ⟨?_, ?_, ?_, ?_, ?_, ?_, ?_⟩
  · simp
  · rfl
  · intro k hk
    cases k with
    | zero =>
      rw [List.getD_cons_zero, List.getD_cons_succ,
        getD_map_range (0,0) n _ 0 (by omega)]
      simp
    | succ k' =>
      rw [List.getD_cons_succ, List.getD_cons_succ,
        getD_map_range (0,0) n _ k' (by omega),
        getD_map_range (0,0) n _ (k'+1) (by omega)]
  · intro k hk1 hk2
    obtain ⟨k', rfl⟩ : ∃ k', k = k' + 1 := ⟨k - 1, by omega⟩
    rw [List.getD_cons_succ, getD_map_range (0,0) n _ k' (by omega)]
    have hks : (k'+1)*S = k'*S + S := by ring
    omega
  · rw [List.getD_cons_zero]
    omega
  · simp only [List.map_cons, List.map_map, List.sum_cons]
    have heach : ∀ j ∈ List.range n,
        ((fun p : ℕ × ℕ => p.2 - p.1) ∘ fun j =>
          (S + M + j*S, S + M + (j+1)*S)) j = (fun _ : ℕ => S) j := by
      intro j _
      simp only [Function.comp_apply]
      have hks : (j+1)*S = j*S + S := by ring
      omega
    rw [List.map_congr_left heach]
    have hsumconst : ∀ m : ℕ, ((List.range m).map fun _ : ℕ => S).sum = m * S := by
      intro m
      induction m with
      | zero => simp
      | succ mm ihm =>
        rw [List.range_succ]
        simp only [List.map_append, List.sum_append, ihm, List.map_cons,
          List.sum_cons, List.map_nil, List.sum_nil]
        have : (mm+1)*S = mm*S + S := by ring
        omega
    rw [hsumconst n]
    have hns : (n+1)*S = n*S + S := by ring
    omega
  · intro j k hjk hk
    obtain ⟨k', rfl⟩ : ∃ k', k = k' + 1 := ⟨k - 1, by omega⟩
    rw [List.getD_cons_succ, getD_map_range (0,0) n _ k' (by omega)]
    cases j with
    | zero =>
      rw [List.getD_cons_zero]
      omega
    | succ j' =>
      rw [List.getD_cons_succ, getD_map_range (0,0) n _ j' (by omega)]
      have hmul : (j'+1)*S ≤ k'*S := Nat.mul_le_mul_right S (by omega)
      omega

/-- C9 witness: the theorem instantiated at `dagItems = 10`,
`mixerCount = 4` (ranges (0,4), (4,6), (6,8), (8,10)). -/
theorem claim_C9_witness :
    (mixerRanges 10 4).length = 4
    ∧ ((mixerRanges 10 4).getD 1 (0,0)).2 - ((mixerRanges 10 4).getD 1 (0,0)).1 = 10 / 4
    ∧ ((mixerRanges 10 4).getD 0 (0,0)).2 - ((mixerRanges 10 4).getD 0 (0,0)).1
        = 10 / 4 + 10 % 4
    ∧ ((mixerRanges 10 4).map fun p => p.2 - p.1).sum = 10 :=
  ⟨(claim_C9 10 4 (by decide)).1,
   (claim_C9 10 4 (by decide)).2.2.2.1 1 (by decide) (by decide),
   (claim_C9 10 4 (by decide)).2.2.2.2.1,
   (claim_C9 10 4 (by decide)).2.2.2.2.2.1⟩


/-- C3 (confirmed).  For every decoded stack-health word, the emergency
actions — soft-stop of the hashing core, power-down write of 0 to 0xB000,
setting the busy (`m_dagging`) flag, and the condition-variable wake
signal — happen exactly when one of the four hazard conditions holds:
left catastrophic bit set (bit 2), right catastrophic bit set (bit 10),
left calibrated bit clear (bit 0), or right calibrated bit clear
(bit 1). -/
theorem claim_C3 (o : TelemOracle) (d : Bool) :
    (hazardOf (o.hbmRead.getD 3) = true ↔
      ((o.hbmRead.getD 3 / 4) % 2 = 1 ∨ (o.hbmRead.getD 3 / 1024) % 2 = 1
        ∨ o.hbmRead.getD 3 % 2 = 0 ∨ (o.hbmRead.getD 3 / 2) % 2 = 0))
    ∧ (hazardOf (o.hbmRead.getD 3) = true →
        Ev.stopSoft ∈ (telemetryModel o d).1
        ∧ Ev.write 0xB000 0 ∈ (telemetryModel o d).1
        ∧ (telemetryModel o d).2 = true
        ∧ Ev.notify ∈ (telemetryModel o d).1)
    ∧ (hazardOf (o.hbmRead.getD 3) = false →
        Ev.stopSoft ∉ (telemetryModel o d).1
        ∧ Ev.write 0xB000 0 ∉ (telemetryModel o d).1
        ∧ (telemetryModel o d).2 = d
        ∧ Ev.notify ∉ (telemetryModel o d).1) := by
  refine ⟨?_, ?_, ?_⟩
  · simp only [hazardOf, Nat.shiftRight_eq_div_pow, Nat.and_one_is_mod,
      Bool.or_eq_true, Bool.not_eq_true', beq_iff_eq, beq_eq_false_iff_ne,
      pow_zero, Nat.div_one]
    norm_num
    omega
  · intro hhaz
    simp only [telemetryModel, hhaz, if_true]
    exact ⟨by decide, by decide, by trivial, by decide⟩
  · intro hhaz
    simp only [telemetryModel, hhaz, Bool.false_eq_true, if_false]
    exact ⟨by decide, by decide, by trivial, by decide⟩

/-- C3 witness: the theorem instantiated on a stack-health word 4 (left
catastrophic set, both calibrated bits clear). -/
theorem claim_C3_witness :
    Ev.stopSoft ∈ (telemetryModel ⟨some 0, some 0, some 4, 0⟩ false).1
    ∧ Ev.write 0xB000 0 ∈ (telemetryModel ⟨some 0, some 0, some 4, 0⟩ false).1
    ∧ (telemetryModel ⟨some 0, some 0, some 4, 0⟩ false).2 = true
    ∧ Ev.notify ∈ (telemetryModel ⟨some 0, some 0, some 4, 0⟩ false).1 :=
  (claim_C3 ⟨some 0, some 0, some 4, 0⟩ false).2.1 (by decide)

/-- C4 counterexample.  When the 0x7008 read fails, the substituted
default word 0x3 decodes as "both stacks calibrated, no catastrophic
temperature", so the emergency-stop branch is bypassed even though an
actual (unreadable) word such as 4 — left-stack catastrophic — would
demand it: the substitution does suppress a real fault path, contradicting
the claimed fail-safe direction. -/
theorem claim_C4_counterexample :
    (telemetryModel ⟨some 0, some 0, none, 0⟩ false).1
      = [Ev.lock, Ev.read 0x3400, Ev.getClk, Ev.read 0x3404, Ev.read 0x7008,
         Ev.unlock]
    ∧ Ev.stopSoft ∉ (telemetryModel ⟨some 0, some 0, none, 0⟩ false).1
    ∧ Ev.write 0xB000 0 ∉ (telemetryModel ⟨some 0, some 0, none, 0⟩ false).1
    ∧ (telemetryModel ⟨some 0, some 0, none, 0⟩ false).2 = false
    ∧ hazardOf 3 = false
    ∧ hazardOf 4 = true := by
  decide

/-- C4 (amended).  The default substituted on a 0x7008 read failure is
0x3, which decodes as calibrated and non-catastrophic on both stacks, so
under a read failure the emergency-stop branch (halt + power-down + busy)
is always bypassed: the substitution is fail-operational (chosen to avoid
spurious trips, per the code comment), not fail-safe, and it can mask a
real hazard that the failed read would otherwise have reported. -/
theorem claim_C4_amended (o : TelemOracle) (d : Bool) (h : o.hbmRead = none) :
    (telemetryModel o d).1
      = [Ev.lock, Ev.read 0x3400, Ev.getClk, Ev.read 0x3404, Ev.read 0x7008,
         Ev.unlock]
    ∧ Ev.stopSoft ∉ (telemetryModel o d).1
    ∧ Ev.write 0xB000 0 ∉ (telemetryModel o d).1
    ∧ (telemetryModel o d).2 = d
    ∧ (o.hbmRead.getD 3) % 2 = 1 ∧ ((o.hbmRead.getD 3) / 2) % 2 = 1
    ∧ ((o.hbmRead.getD 3) / 4) % 2 = 0
    ∧ ((o.hbmRead.getD 3) / 1024) % 2 = 0 := by
  have h3 : hazardOf 3 = false := by decide
  have hmod : telemetryModel o d
      = ([Ev.lock, Ev.read 0x3400, Ev.getClk, Ev.read 0x3404, Ev.read 0x7008,
          Ev.unlock], d) := by
    simp [telemetryModel, h, h3]
  have h1 : (telemetryModel o d).1
      = [Ev.lock, Ev.read 0x3400, Ev.getClk, Ev.read 0x3404, Ev.read 0x7008,
         Ev.unlock] := by rw [hmod]
  have h2 : (telemetryModel o d).2 = d := by rw [hmod]
  refine ⟨h1, by rw [h1]; decide, by rw [h1]; decide, h2, ?_, ?_, ?_, ?_⟩
    <;> rw [h] <;> decide

/-- C4 witness: the amended theorem instantiated on a failed read while
dagging. -/
theorem claim_C4_witness :
    Ev.stopSoft ∉ (telemetryModel ⟨some 0, some 0, none, 0⟩ true).1
    ∧ (telemetryModel ⟨some 0, some 0, none, 0⟩ true).2 = true :=
  ⟨(claim_C4_amended ⟨some 0, some 0, none, 0⟩ true rfl).2.1,
   (claim_C4_amended ⟨some 0, some 0, none, 0⟩ true rfl).2.2.2.1⟩

/-- C10 counterexample.  With 60 whole seconds elapsed since the last
flush (so at least 60 seconds of real time) and an accumulated count whose
one-minute average, 50 Mh/s, lies strictly inside (10, 100), the code does
not flush: the counter keeps accumulating and the FIFOs are untouched,
because the code's condition is `elapsedSeconds > 60`, not `≥ 60`. -/
theorem claim_C10_counterexample :
    hrStep (3*10^9) 60 ⟨0, [], []⟩ = (⟨3*10^9, [], []⟩, false)
    ∧ (((0 + 3*10^9) / 60 : ℕ) : ℚ) / 1000000 = 50 := by
  constructor
  · rfl
  · norm_num

/-- C10 (amended).  The averager flushes exactly when the whole-second
elapsed count exceeds 60 (i.e. at least 61 seconds since the last flush);
at a flush `avg1min = (counter/60)/10^6`, the sample is appended to both
FIFOs exactly when it lies strictly inside (10, 100), each FIFO drops its
oldest entry when past capacity (never holding more than 10 resp. 60
entries after a flush), and the counter is reset together with the timer.
Between flushes the FIFOs are unchanged and the counter accumulates. -/
theorem claim_C10_amended (delta elapsed : ℕ) (s : HRState)
    (h10 : s.fifo10.length ≤ 10) (h60 : s.fifo60.length ≤ 60) :
    ((hrStep delta elapsed s).2 = true ↔ 60 < elapsed)
    ∧ (elapsed ≤ 60 →
        hrStep delta elapsed s = (⟨s.counter + delta, s.fifo10, s.fifo60⟩, false))
    ∧ (60 < elapsed →
        (hrStep delta elapsed s).1.counter = 0
        ∧ ((10 < ((((s.counter + delta) / 60 : ℕ) : ℚ) / 1000000)
              ∧ ((((s.counter + delta) / 60 : ℕ) : ℚ) / 1000000) < 100) →
            (hrStep delta elapsed s).1.fifo10
              = (if s.fifo10.length = 10 then s.fifo10.tail else s.fifo10)
                  ++ [(((s.counter + delta) / 60 : ℕ) : ℚ) / 1000000]
            ∧ (hrStep delta elapsed s).1.fifo60
              = (if s.fifo60.length = 60 then s.fifo60.tail else s.fifo60)
                  ++ [(((s.counter + delta) / 60 : ℕ) : ℚ) / 1000000])
        ∧ (¬ (10 < ((((s.counter + delta) / 60 : ℕ) : ℚ) / 1000000)
              ∧ ((((s.counter + delta) / 60 : ℕ) : ℚ) / 1000000) < 100) →
            (hrStep delta elapsed s).1.fifo10 = s.fifo10
            ∧ (hrStep delta elapsed s).1.fifo60 = s.fifo60)
        ∧ (hrStep delta elapsed s).1.fifo10.length ≤ 10
        ∧ (hrStep delta elapsed s).1.fifo60.length ≤ 60) := by
  by_cases he : 60 < elapsed
  · simp only [hrStep, if_pos he]
    refine ⟨by simp [he], fun hc => absurd he (by omega),
      fun _ => ⟨by trivial, ?_, ?_, ?_, ?_⟩⟩
    · intro hin
      rw [if_pos hin, if_pos hin]
      constructor
      · by_cases hlen : s.fifo10.length = 10
        · rw [if_pos (by simp [hlen] : 10 < (s.fifo10
              ++ [(((s.counter + delta) / 60 : ℕ) : ℚ) / 1000000]).length),
            if_pos hlen]
          have hne : s.fifo10 ≠ [] := by
            intro hnil
            rw [hnil] at hlen
            simp at hlen
          rw [List.tail_append_of_ne_nil hne]
        · rw [if_neg (show ¬ 10 < (s.fifo10
              ++ [(((s.counter + delta) / 60 : ℕ) : ℚ) / 1000000]).length by
                simp
                omega),
            if_neg hlen]
      · by_cases hlen : s.fifo60.length = 60
        · rw [if_pos (by simp [hlen] : 60 < (s.fifo60
              ++ [(((s.counter + delta) / 60 : ℕ) : ℚ) / 1000000]).length),
            if_pos hlen]
          have hne : s.fifo60 ≠ [] := by
            intro hnil
            rw [hnil] at hlen
            simp at hlen
          rw [List.tail_append_of_ne_nil hne]
        · rw [if_neg (show ¬ 60 < (s.fifo60
              ++ [(((s.counter + delta) / 60 : ℕ) : ℚ) / 1000000]).length by
                simp
                omega),
            if_neg hlen]
    · intro hin
      rw [if_neg hin, if_neg hin,
        if_neg (show ¬ 10 < s.fifo10.length by omega),
        if_neg (show ¬ 60 < s.fifo60.length by omega)]
      exact ⟨rfl, rfl⟩
    · by_cases hin : (10 < ((((s.counter + delta) / 60 : ℕ) : ℚ) / 1000000)
          ∧ ((((s.counter + delta) / 60 : ℕ) : ℚ) / 1000000) < 100)
      · rw [if_pos hin]
        by_cases hl : 10 < (s.fifo10
            ++ [(((s.counter + delta) / 60 : ℕ) : ℚ) / 1000000]).length
        · rw [if_pos hl]
          simp only [List.length_tail, List.length_append, List.length_cons,
            List.length_nil]
          omega
        · rw [if_neg hl]
          simp only [List.length_append, List.length_cons, List.length_nil] at hl ⊢
          omega
      · rw [if_neg hin, if_neg (show ¬ 10 < s.fifo10.length by omega)]
        exact h10
    · by_cases hin : (10 < ((((s.counter + delta) / 60 : ℕ) : ℚ) / 1000000)
          ∧ ((((s.counter + delta) / 60 : ℕ) : ℚ) / 1000000) < 100)
      · rw [if_pos hin]
        by_cases hl : 60 < (s.fifo60
            ++ [(((s.counter + delta) / 60 : ℕ) : ℚ) / 1000000]).length
        · rw [if_pos hl]
          simp only [List.length_tail, List.length_append, List.length_cons,
            List.length_nil]
          omega
        · rw [if_neg hl]
          simp only [List.length_append, List.length_cons, List.length_nil] at hl ⊢
          omega
      · rw [if_neg hin, if_neg (show ¬ 60 < s.fifo60.length by omega)]
        exact h60
  · simp only [hrStep, if_neg he]
    exact ⟨by simp [he], fun _ => by trivial, fun hc => absurd hc he⟩

/-- C10 witness: the amended theorem instantiated on a flush at 61
elapsed seconds with an admissible 50 Mh/s sample entering empty FIFOs. -/
theorem claim_C10_witness :
    (hrStep (3*10^9) 61 ⟨0, [], []⟩).2 = true
    ∧ (hrStep (3*10^9) 61 ⟨0, [], []⟩).1.counter = 0
    ∧ (hrStep (3*10^9) 61 ⟨0, [], []⟩).1.fifo10 = [50] := by
  have havg : ((((0:ℕ) + 3*10^9) / 60 : ℕ) : ℚ) / 1000000 = 50 := by norm_num
  have h := claim_C10_amended (3*10^9) 61 ⟨0, [], []⟩ (by simp) (by simp)
  have hflush := h.2.2 (by omega)
  have hin : 10 < ((((0:ℕ) + 3*10^9) / 60 : ℕ) : ℚ) / 1000000
      ∧ ((((0:ℕ) + 3*10^9) / 60 : ℕ) : ℚ) / 1000000 < 100 := by
    rw [havg]
    norm_num
  refine ⟨h.1.mpr (by omega), hflush.1, ?_⟩
  rw [(hflush.2.1 hin).1]
  norm_num

/-- C7 counterexample.  With VCO register 0x011101 (multiplier 17,
fractional field 1, output divider 1: VCO = 3400.2) and `targetClk =
1599`, the exact desired divisor is 3400.2/1600 = 2.125125; rounded up to
the nearest 1/8 that would be 2.25, but `(int)(desiredDiv*8 + 0.99)`
truncates 17.991 to 17, programming divisor 17/8 = 2.125 — a divisor
strictly below the exact requested one, contradicting the claim. -/
theorem claim_C7_counterexample :
    vcoOf 0x011101 = 17001/5
    ∧ setClockDivisor (vcoOf 0x011101) 1599 = some (17/8)
    ∧ (17/8 : ℚ) < vcoOf 0x011101 / (1599 + 1) := by
  have e1 : ((0x011101 >>> 8) &&& 0xFF : ℕ) = 17 := by decide
  have e2 : ((0x011101 >>> 16) &&& 0x2F : ℕ) = 1 := by decide
  have e3 : ((0x011101 >>> 16) &&& 0x3FF : ℕ) = 1 := by decide
  have e4 : (0x011101 &&& 0xF : ℕ) = 1 := by decide
  have h1 : vcoOf 0x011101 = 17001/5 := by
    unfold vcoOf
    rw [e1, e2, e3, e4]
    norm_num
  have hd : (17001/5 : ℚ) / (1599 + 1) = 17001/8000 := by norm_num
  have hfl : (⌊(17001/8000 : ℚ) * 8 + 99/100⌋ : ℤ) = 17 := by
    rw [Int.floor_eq_iff]
    constructor <;> norm_num
  have hr : divRound (17001/8000 : ℚ) = 17/8 := by
    unfold divRound
    rw [hfl]
    norm_num
  refine ⟨h1, ?_, ?_⟩
  · rw [h1]
    simp only [setClockDivisor, if_pos (by norm_num : (0:ℚ) < 1599)]
    rw [hd, hr, if_neg (by norm_num : ¬ (17/8 : ℚ) < 2)]
  · rw [h1, hd]
    norm_num

/-- C7 (amended).  For every VCO value and `targetClk > 0` the programmed
divisor is `floor(8d + 0.99)/8` with `d = VCO/(targetClk+1)`, always a
multiple of 0.125; the request is rejected as a no-op exactly when that
rounded divisor (not the raw `d`) is below 2.0.  Whenever the fractional
part of `8d` is zero or at least 0.01 the result is the claimed
round-up — at least `d` and within 1/8 above it — but in the window
`0 < fract(8d) < 0.01` the `+0.99` trick rounds down instead, yielding
`floor(8d)/8`, one eighth below the claimed value and strictly below
`d`. -/
theorem claim_C7_amended (vco targetClk : ℚ) (ht : 0 < targetClk)
    (hv : 0 ≤ vco) :
    (∃ k : ℤ, divRound (vco / (targetClk + 1)) = (k : ℚ)/8)
    ∧ (setClockDivisor vco targetClk = none
        ↔ divRound (vco / (targetClk + 1)) < 2)
    ∧ (¬ divRound (vco / (targetClk + 1)) < 2 →
        setClockDivisor vco targetClk = some (divRound (vco / (targetClk + 1))))
    ∧ (Int.fract (vco / (targetClk + 1) * 8) = 0
        ∨ 1/100 ≤ Int.fract (vco / (targetClk + 1) * 8) →
        vco / (targetClk + 1) ≤ divRound (vco / (targetClk + 1))
        ∧ divRound (vco / (targetClk + 1)) < vco / (targetClk + 1) + 1/8)
    ∧ (0 < Int.fract (vco / (targetClk + 1) * 8) →
        Int.fract (vco / (targetClk + 1) * 8) < 1/100 →
        divRound (vco / (targetClk + 1))
            = ((⌊vco / (targetClk + 1) * 8⌋ : ℤ) : ℚ)/8
        ∧ divRound (vco / (targetClk + 1)) < vco / (targetClk + 1)) := by
  have hsplit : vco / (targetClk + 1) * 8
      = (⌊vco / (targetClk + 1) * 8⌋ : ℚ)
        + Int.fract (vco / (targetClk + 1) * 8) :=
    (Int.floor_add_fract _).symm
  have hfr0 : (0:ℚ) ≤ Int.fract (vco / (targetClk + 1) * 8) :=
    Int.fract_nonneg _
  have hfr1 : Int.fract (vco / (targetClk + 1) * 8) < 1 := Int.fract_lt_one _
  have hcase1 : 1/100 ≤ Int.fract (vco / (targetClk + 1) * 8) →
      (⌊vco / (targetClk + 1) * 8 + 99/100⌋ : ℤ)
        = ⌊vco / (targetClk + 1) * 8⌋ + 1 := by
    intro hge
    rw [Int.floor_eq_iff]
    constructor
    · push_cast
      linarith
    · push_cast
      linarith
  have hcase2 : Int.fract (vco / (targetClk + 1) * 8) < 1/100 →
      (⌊vco / (targetClk + 1) * 8 + 99/100⌋ : ℤ)
        = ⌊vco / (targetClk + 1) * 8⌋ := by
    intro hlt
    rw [Int.floor_eq_iff]
    constructor
    · push_cast
      linarith
    · push_cast
      linarith
  refine ⟨⟨⌊vco / (targetClk + 1) * 8 + 99/100⌋, rfl⟩, ?_, ?_, ?_, ?_⟩
  · by_cases hr2 : divRound (vco / (targetClk + 1)) < 2
    · simp only [setClockDivisor, if_pos ht, if_pos hr2]
      simp [hr2]
    · simp only [setClockDivisor, if_pos ht, if_neg hr2]
      simp [hr2]
  · intro hr2
    simp only [setClockDivisor, if_pos ht, if_neg hr2]
  · intro hor
    rcases hor with h0 | hge
    · have hfl := hcase2 (by rw [h0]; norm_num)
      unfold divRound
      rw [hfl]
      constructor
      · rw [le_div_iff (by norm_num : (0:ℚ) < 8)]
        linarith
      · rw [div_lt_iff (by norm_num : (0:ℚ) < 8)]
        linarith
    · have hfl := hcase1 hge
      unfold divRound
      rw [hfl]
      constructor
      · rw [le_div_iff (by norm_num : (0:ℚ) < 8)]
        push_cast
        linarith
      · rw [div_lt_iff (by norm_num : (0:ℚ) < 8)]
        push_cast
        linarith
  · intro hpos hlt
    have hfl := hcase2 hlt
    unfold divRound
    rw [hfl]
    refine ⟨rfl, ?_⟩
    rw [div_lt_iff (by norm_num : (0:ℚ) < 8)]
    linarith

/-- C7 witness: the amended theorem instantiated at VCO 800 and target
clock 399, where the exact divisor 2 is representable and programmed
unchanged. -/
theorem claim_C7_witness :
    (∃ k : ℤ, divRound ((800:ℚ) / (399 + 1)) = (k : ℚ)/8)
    ∧ setClockDivisor 800 399 = some (divRound ((800:ℚ)/(399+1)))
    ∧ (800:ℚ)/(399+1) ≤ divRound ((800:ℚ)/(399+1)) := by
  have h := claim_C7_amended 800 399 (by norm_num) (by norm_num)
  have hd2 : (800:ℚ)/(399+1) = 2 := by norm_num
  have hfl : (⌊(800:ℚ)/(399+1) * 8 + 99/100⌋ : ℤ) = 16 := by
    rw [hd2, Int.floor_eq_iff]
    constructor <;> norm_num
  have hdr : divRound ((800:ℚ)/(399+1)) = 2 := by
    unfold divRound
    rw [hfl]
    norm_num
  have hfract : Int.fract ((800:ℚ)/(399+1) * 8) = 0 := by
    rw [hd2, show ((2:ℚ) * 8) = ((16:ℤ) : ℚ) by norm_num]
    exact Int.fract_intCast 16
  exact ⟨h.1, h.2.2.1 (by rw [hdr]; norm_num),
    (h.2.2.2.1 (Or.inl hfract)).1⟩

lemma lastTwo_append (xs : List Ev) (a b : Ev) :
    lastTwo (xs ++ [a, b]) = [a, b] := by
  unfold lastTwo
  have hlen : (xs ++ [a, b]).length = xs.length + 2 := by simp
  rw [hlen]
  have h2 : xs.length + 2 - 2 = xs.length := by omega
  rw [h2]
  exact List.drop_left xs [a, b]

lemma searchLoopRun_head_eq :
    ∀ (iters : List IterIn) (lastS s : ℕ) (ss : List ℕ) (tr : List Ev),
      searchLoopRun false lastS iters = some (s :: ss, tr) → s = lastS →
      ss = [] := by
  intro iters
  cases iters with
  | nil =>
    intro lastS s ss tr h _
    exact absurd h (by simp [searchLoopRun])
  | cons it rest =>
    intro lastS s ss tr h hs
    simp only [searchLoopRun, Bool.false_eq_true, if_false] at h
    by_cases hnw : (it.newWork || it.stop) = true
    · rw [if_pos hnw] at h
      simp at h
    · rw [if_neg hnw] at h
      by_cases he : it.sCntRead.getD 0 = lastS
      · rw [if_pos he] at h
        simp only [Option.some.injEq, Prod.mk.injEq, List.cons.injEq] at h
        exact h.1.2.symm
      · rw [if_neg he] at h
        rcases hrec : searchLoopRun false (it.sCntRead.getD 0) rest with _ | p
        · rw [hrec] at h
          simp at h
        · rw [hrec] at h
          simp only [Option.map_some', Option.some.injEq, Prod.mk.injEq,
            List.cons.injEq] at h
          exact absurd (h.1.1.trans hs) he

lemma searchLoopRun_stall_pairs :
    ∀ (iters : List IterIn) (lastS : ℕ) (ss : List ℕ) (tr : List Ev) (k : ℕ),
      searchLoopRun false lastS iters = some (ss, tr) →
      k + 1 < ss.length → ss.getD k 0 = ss.getD (k+1) 0 →
      ss.length = k + 2 := by
  intro iters
  induction iters with
  | nil =>
    intro lastS ss tr k h
    exact absurd h (by simp [searchLoopRun])
  | cons it rest ih =>
    intro lastS ss tr k h hk heq
    simp only [searchLoopRun, Bool.false_eq_true, if_false] at h
    by_cases hnw : (it.newWork || it.stop) = true
    · rw [if_pos hnw] at h
      simp only [Option.some.injEq, Prod.mk.injEq] at h
      rw [← h.1] at hk
      simp at hk
    · rw [if_neg hnw] at h
      by_cases he : it.sCntRead.getD 0 = lastS
      · rw [if_pos he] at h
        simp only [Option.some.injEq, Prod.mk.injEq] at h
        rw [← h.1] at hk
        simp at hk
      · rw [if_neg he] at h
        rcases hrec : searchLoopRun false (it.sCntRead.getD 0) rest with _ | p
        · rw [hrec] at h
          simp at h
        · rw [hrec] at h
          simp only [Option.map_some', Option.some.injEq, Prod.mk.injEq] at h
          obtain ⟨hss, _⟩ := h
          subst hss
          cases k with
          | zero =>
            cases hp1 : p.1 with
            | nil =>
              rw [hp1] at hk
              simp at hk
            | cons s1 t1 =>
              rw [hp1] at heq hk
              simp only [List.getD_cons_zero, List.getD_cons_succ] at heq
              have hp' : searchLoopRun false (it.sCntRead.getD 0) rest
                  = some (s1 :: t1, p.2) := by
                rw [hrec, ← hp1]
              have ht1 : t1 = [] :=
                searchLoopRun_head_eq rest (it.sCntRead.getD 0) s1 t1 p.2 hp'
                  heq.symm
              rw [ht1]
              simp
          | succ k' =>
            have hlen : p.1.length = k' + 2 := by
              apply ih (it.sCntRead.getD 0) p.1 p.2 k'
              · rw [hrec]
              · rw [List.length_cons] at hk
                omega
              · simp only [List.getD_cons_succ] at heq
                exact heq
            rw [List.length_cons, hlen]

/-- C5 (confirmed).  With stall detection enabled, whenever two
consecutive samples of the stall counter are equal, the iteration that
took the second sample is the last one the loop executes — the sample list
ends exactly there, so no third poll of the unchanged counter happens —
and every terminating search invocation ends with a soft stop immediately
followed by the lock release. -/
theorem claim_C5 (header boundary nonce flags : ℕ) (iters : List IterIn)
    (ss : List ℕ) (k : ℕ)
    (h : (searchModel false header boundary nonce flags iters).map Prod.fst
      = some ss)
    (hk : k + 1 < ss.length) (heq : ss.getD k 0 = ss.getD (k+1) 0) :
    ss.length = k + 2
    ∧ (searchModel false header boundary nonce flags iters).map
        (fun p => lastTwo p.2) = some [Ev.stopSoft, Ev.unlock] := by
  rcases hrun : searchLoopRun false 0 iters with _ | p
  · rw [searchModel, hrun] at h
    simp at h
  · have hms : searchModel false header boundary nonce flags iters
        = some (p.1, searchEntryTrace header boundary nonce flags ++ p.2
            ++ [Ev.stopSoft, Ev.unlock]) := by
      rw [searchModel, hrun]
      rfl
    rw [hms] at h
    simp only [Option.map_some', Option.some.injEq] at h
    constructor
    · apply searchLoopRun_stall_pairs iters 0 ss p.2 k ?_ hk heq
      rw [hrun, ← h]
    · rw [hms]
      simp only [Option.map_some', Option.some.injEq]
      exact lastTwo_append _ _ _

/-- C5 witness: the theorem instantiated on a three-iteration oracle whose
second and third stall samples coincide (5, 7, 7): the loop ends at the
third iteration and the trace ends with soft stop then unlock. -/
theorem claim_C5_witness :
    ([5, 7, 7] : List ℕ).length = 1 + 2
    ∧ (searchModel false 0 0 0 0
        [⟨false, false, none, some 5⟩, ⟨false, false, none, some 7⟩,
         ⟨false, false, none, some 7⟩]).map (fun p => lastTwo p.2)
      = some [Ev.stopSoft, Ev.unlock] :=
  claim_C5 0 0 0 0
    [⟨false, false, none, some 5⟩, ⟨false, false, none, some 7⟩,
     ⟨false, false, none, some 7⟩] [5, 7, 7] 1 (by decide) (by decide)
    (by decide)

/-- C2 (confirmed).  When the persisted status word read from 0x40B8 has
bit 31 set, its low 16 bits equal the requested epoch, and force
regeneration is off, `initEpoch_internal` returns success with exactly the
fast-path trace: the generator is powered down (0 written to 0xB000) and
the trace contains no generator-start command (1 to 0x4000), no
light-cache build operation, no mixer-range write, and no duplication
copy. -/
theorem claim_C2 (skipDAG : Bool) (mixers : ℕ) (o : EpochOracle)
    (epoch dagSize lightSize : ℕ) (w : ℕ)
    (hw : o.dagStatusRead = some w) (hbit : w >>> 31 ≠ 0)
    (hep : w &&& 0xFFFF = epoch % 2^32) :
    initEpochModel false skipDAG mixers o epoch dagSize lightSize
      = some (true, fastPathTrace o (dagSize / 128 % 2^32))
    ∧ genStartWrites (fastPathTrace o (dagSize / 128 % 2^32)) = 0
    ∧ cacheBuildWrites (fastPathTrace o (dagSize / 128 % 2^32)) = 0
    ∧ mixerRangeWrites (fastPathTrace o (dagSize / 128 % 2^32)) = 0
    ∧ dagCopies (fastPathTrace o (dagSize / 128 % 2^32)) = 0
    ∧ Ev.write 0xB000 0 ∈ fastPathTrace o (dagSize / 128 % 2^32) := by
  have hcond : ((o.dagStatusRead.getD 0 >>> 31 != 0) && !false
      && (o.dagStatusRead.getD 0 &&& 0xFFFF == epoch % 2^32)) = true := by
    rw [hw]
    simp only [Option.getD_some, Bool.not_false, Bool.and_true, Bool.and_eq_true,
      bne_iff_ne, beq_iff_eq]
    exact ⟨hbit, hep⟩
  refine ⟨?_, ?_, ?_, ?_, ?_, ?_⟩
  · simp only [initEpochModel, hcond, if_true]
  · simp [genStartWrites, fastPathTrace, epochPreTrace]
  · simp [cacheBuildWrites, fastPathTrace, epochPreTrace]
  · simp [mixerRangeWrites, fastPathTrace, epochPreTrace]
  · simp [dagCopies, fastPathTrace, epochPreTrace]
  · simp [fastPathTrace, epochPreTrace]

/-- C2 witness: the theorem instantiated on a concrete fast-path run
(status word `2^31 + 5`, epoch 5, `dagSize = 2^33`, no force flag). -/
theorem claim_C2_witness :
    initEpochModel false false 4 ⟨some (2^31 + 5), 0, 300, [], 0, [], none⟩
        5 (2^33) (2^24)
      = some (true, fastPathTrace ⟨some (2^31 + 5), 0, 300, [], 0, [], none⟩
          (2^33 / 128 % 2^32))
    ∧ genStartWrites (fastPathTrace ⟨some (2^31 + 5), 0, 300, [], 0, [], none⟩
        (2^33 / 128 % 2^32)) = 0
    ∧ Ev.write 0xB000 0 ∈ fastPathTrace ⟨some (2^31 + 5), 0, 300, [], 0, [], none⟩
        (2^33 / 128 % 2^32) :=
  ⟨(claim_C2 false 4 ⟨some (2^31 + 5), 0, 300, [], 0, [], none⟩ 5 (2^33) (2^24)
      (2^31 + 5) rfl (by decide) (by decide)).1,
   (claim_C2 false 4 ⟨some (2^31 + 5), 0, 300, [], 0, [], none⟩ 5 (2^33) (2^24)
      (2^31 + 5) rfl (by decide) (by decide)).2.1,
   (claim_C2 false 4 ⟨some (2^31 + 5), 0, 300, [], 0, [], none⟩ 5 (2^33) (2^24)
      (2^31 + 5) rfl (by decide) (by decide)).2.2.2.2.2⟩
